import Mathlib

/-!
Verification of the PRIMME example driver `examples/ex_eigs_dseq.c`.

The driver defines two caller-supplied callbacks for the eigensolver:

* `LaplacianMatrixMatvec` — block matrix-vector product `Y = A * X` with the
  1-D Laplacian tridiagonal matrix (2 on the diagonal, -1 on the sub- and
  super-diagonals);
* `LaplacianApplyPreconditioner` — block application `Y = M⁻¹ * X` with
  `M = diag(2, …, 2)`;

and a `main` that configures the solve, calls `dprimme`, and reports results.

Doubles are modelled as exact rationals (`ℚ`); buffers passed by pointer are
modelled as total functions `ℕ → ℚ` indexed from the pointer's base, and each
C store `yvec[row] = v` becomes a pointwise functional update.  The input and
output buffers are distinct objects, as in the solver's calling contract.
-/

/-- Functional update of one cell of a buffer: the effect of a C store
`buf[j] = v` on memory modelled as `ℕ → ℚ`. -/
def upd (y : ℕ → ℚ) (j : ℕ) (v : ℚ) : ℕ → ℚ :=
  fun k => if k = j then v else y k

/-- Value accumulated in `yvec[row]` by the inner loop body of
`LaplacianMatrixMatvec`: starting from `0.0`, add `-1.0*xvec[row-1]` when
`row-1 >= 0`, then `2.0*xvec[row]`, then `-1.0*xvec[row+1]` when
`row+1 < primme->n`.  `xv` is the view of the current input column. -/
def lapCell (n : ℕ) (xv : ℕ → ℚ) (row : ℕ) : ℚ :=
  let y0 : ℚ := 0
  let y1 : ℚ := if 1 ≤ row then y0 + (-1) * xv (row - 1) else y0
  let y2 : ℚ := y1 + 2 * xv row
  let y3 : ℚ := if row + 1 < n then y2 + (-1) * xv (row + 1) else y2
  y3

/-- Value stored in `yvec[row]` by the inner loop body of
`LaplacianApplyPreconditioner`: `xvec[row]/2.`. -/
def precCell (xv : ℕ → ℚ) (row : ℕ) : ℚ :=
  xv row / 2

/-- The inner `for (row=0; row<r; row++)` loop of either callback: store the
cell value `g row` into `y` at offset `yoff + row`, rows in increasing order. -/
def rowLoop (g : ℕ → ℚ) (yoff : ℕ) : ℕ → (ℕ → ℚ) → (ℕ → ℚ)
  | 0, y => y
  | r + 1, y => upd (rowLoop g yoff r y) (yoff + r) (g r)

/-- The outer `for (i=0; i<b; i++)` loop over block columns: column `i` is
written at offset `ldy*i` with cell values `g i`, columns in increasing
order. -/
def colLoop (g : ℕ → ℕ → ℚ) (n ldy : ℕ) : ℕ → (ℕ → ℚ) → (ℕ → ℚ)
  | 0, y => y
  | i + 1, y => rowLoop (g i) (ldy * i) n (colLoop g n ldy i y)

/-- Result of one callback invocation: the (unmodified) input buffer, the
output buffer after all stores, and the value written through the status
pointer (`*err` / `*ierr`). -/
structure CallResult where
  x : ℕ → ℚ
  y : ℕ → ℚ
  ierr : ℤ

/-- Shared shape of both callbacks: a doubly nested loop writing
`cell n (column i of x) row` to `y[ldy*i + row]`, all stores going to the
output buffer, then `*ierr = 0`. -/
def blockCall (cell : ℕ → (ℕ → ℚ) → ℕ → ℚ) (x : ℕ → ℚ) (ldx : ℕ)
    (y : ℕ → ℚ) (ldy blockSize n : ℕ) : CallResult :=
  { x := x
    y := colLoop (fun i => cell n (fun k => x (ldx * i + k))) n ldy blockSize y
    ierr := 0 }

/-- Embedding of `LaplacianMatrixMatvec(x, ldx, y, ldy, blockSize, primme, err)`
with `n = primme->n`: for each block column `i`, `xvec = x + ldx*i`,
`yvec = y + ldy*i`, and each `yvec[row]` receives the tridiagonal row
combination `lapCell`. -/
def LaplacianMatrixMatvec (x : ℕ → ℚ) (ldx : ℕ) (y : ℕ → ℚ)
    (ldy blockSize n : ℕ) : CallResult :=
  blockCall lapCell x ldx y ldy blockSize n

/-- Embedding of `LaplacianApplyPreconditioner(x, ldx, y, ldy, blockSize,
primme, ierr)` with `n = primme->n`: each `yvec[row]` receives
`xvec[row]/2.`. -/
def LaplacianApplyPreconditioner (x : ℕ → ℚ) (ldx : ℕ) (y : ℕ → ℚ)
    (ldy blockSize n : ℕ) : CallResult :=
  blockCall (fun _ => precCell) x ldx y ldy blockSize n

/-- Calling a block callback `call` once per vector with block width 1:
the `i`-th call receives the column pointers `x + ldx*i` and `y + ldy*i`
(the same leading dimensions), so its local address `k` is global address
`ldy*i + k` in the output buffer. -/
def oneAtATime (call : (ℕ → ℚ) → ℕ → (ℕ → ℚ) → ℕ → ℕ → ℕ → CallResult)
    (x : ℕ → ℚ) (ldx : ℕ) (y : ℕ → ℚ) (ldy n : ℕ) : ℕ → (ℕ → ℚ)
  | 0 => y
  | i + 1 =>
    let yp := oneAtATime call x ldx y ldy n i
    let res := call (fun k => x (ldx * i + k)) ldx (fun k => yp (ldy * i + k)) ldy 1 n
    fun j => if ldy * i ≤ j then res.y (j - ldy * i) else yp j

/-- The tridiagonal matrix described by the spec's reference scenario: `2` on
the diagonal and `-1` on the sub- and super-diagonals (entries indexed below
the dimension `n`); written from the spec's words for comparison with the
code's per-row formula. -/
def specLaplacianMatrix : ℕ → ℕ → ℚ :=
  fun r c => if r = c then 2 else if r = c + 1 ∨ c = r + 1 then -1 else 0

/-- Product of an `n × n` matrix with a length-`n` column vector, row `r`. -/
def specMatVec (n : ℕ) (a : ℕ → ℕ → ℚ) (v : ℕ → ℚ) (r : ℕ) : ℚ :=
  ∑ c ∈ Finset.range n, a r c * v c

/-- Standard inner product of two length-`n` vectors. -/
def dotR (n : ℕ) (u v : ℕ → ℚ) : ℚ :=
  ∑ j ∈ Finset.range n, u j * v j

/-- The linear operator applied by `LaplacianMatrixMatvec` to one column:
row `r` of the output is the code's accumulated cell value. -/
def applyLap (n : ℕ) (x : ℕ → ℚ) : ℕ → ℚ :=
  fun r => lapCell n x r

/-! Model of the driver `main`.  The part of `main` before the `dprimme` call
builds the configuration struct; the part after it reports results to
`primme.outputFile` and chooses the process exit code. -/

/-- Target criterion constants of the solver interface. -/
inductive PrimmeTarget where
  | primme_smallest
  | primme_largest
  | primme_closest_geq
  | primme_closest_leq
  | primme_closest_abs
deriving DecidableEq

/-- Preset method constants used by the driver. -/
inductive PrimmeMethod where
  | PRIMME_DYNAMIC
  | PRIMME_DEFAULT_MIN_TIME
  | PRIMME_DEFAULT_MIN_MATVECS
deriving DecidableEq

/-- The fields of the `primme_params` struct that the driver assigns before
calling the solver.  Callback fields hold the embedded callback functions. -/
structure PrimmeParams where
  n : ℤ
  numEvals : ℤ
  eps : ℚ
  target : PrimmeTarget
  matrixMatvec : Option ((ℕ → ℚ) → ℕ → (ℕ → ℚ) → ℕ → ℕ → ℕ → CallResult)
  applyPreconditioner : Option ((ℕ → ℚ) → ℕ → (ℕ → ℚ) → ℕ → ℕ → ℕ → CallResult)
  precondition : ℤ
  method : PrimmeMethod

/-- Modelled from the spec: `primme_set_method` is part of the solver library,
whose source is not in this repository; per the configuration surface
("method/strategy selection (static or dynamic)") it selects the solver
strategy and tunes solver-internal parameters, leaving the problem-descriptor
fields (dimension, number wanted, tolerance, target criterion) as the caller
set them. -/
def primme_set_method (m : PrimmeMethod) (p : PrimmeParams) : PrimmeParams :=
  { p with method := m }

/-- The configuration the driver builds before invoking `dprimme`, mirroring
the assignments in `main` in source order: the matvec callback, `n = 100`,
`numEvals = 10`, `eps = 1e-9`, `target = primme_smallest`, the preconditioner
callback, `correctionParams.precondition = 1`, then
`primme_set_method(PRIMME_DYNAMIC, &primme)`.  `p0` is the struct as left by
the library's default-setting call. -/
def driverSetParams (p0 : PrimmeParams) : PrimmeParams :=
  let p1 := { p0 with matrixMatvec := some LaplacianMatrixMatvec }
  let p2 := { p1 with n := 100 }
  let p3 := { p2 with numEvals := 10 }
  let p4 := { p3 with eps := 1 / 1000000000 }
  let p5 := { p4 with target := PrimmeTarget.primme_smallest }
  let p6 := { p5 with applyPreconditioner := some LaplacianApplyPreconditioner }
  let p7 := { p6 with precondition := 1 }
  primme_set_method PrimmeMethod.PRIMME_DYNAMIC p7

/-- State visible to `main` after the `dprimme` call returns: the return
status, the output arrays, and the fields of `primme` that the reporting code
reads.  `intWork` is `none` when the integer workspace pointer is null. -/
structure SolveOutcome where
  ret : ℤ
  initSize : ℕ
  evals : ℕ → ℚ
  rnorms : ℕ → ℚ
  aNorm : ℚ
  eps : ℚ
  numOuterIterations : ℤ
  numRestarts : ℤ
  numMatvecs : ℤ
  numPreconds : ℤ
  locking : ℤ
  intWork : Option (ℕ → ℤ)
  dynamicMethodSwitch : ℤ

/-- One line printed by the reporting code of `main`. -/
inductive ReportItem where
  | errorExit (ret : ℤ)
  | evalLine (i : ℕ) (ev rn : ℚ)
  | convergedLine (k : ℕ)
  | toleranceLine (t : ℚ)
  | iterationsLine (v : ℤ)
  | restartsLine (v : ℤ)
  | matvecsLine (v : ℤ)
  | precondsLine (v : ℤ)
  | lockingWarning
  | recommendMinMatvecs
  | recommendMinTime
  | recommendDynamicClose
deriving DecidableEq

/-- The condition `primme.locking && primme.intWork && primme.intWork[0] == 1`
guarding the locking-problem warning. -/
def lockingProblem (s : SolveOutcome) : Bool :=
  (s.locking != 0) &&
    (match s.intWork with
     | some w => w 0 == 1
     | none => false)

/-- The sequence of lines `main` prints after `dprimme` returns, in source
order: on nonzero status, only the error message (the function then returns
`-1`); on success, one `Eval[i]` line per converged pair, the summary and
statistics lines, the three-line locking warning when its guard holds
(collapsed here to one item), and the `switch (primme.dynamicMethodSwitch)`
recommendation. -/
def driverReport (s : SolveOutcome) : List ReportItem :=
  if s.ret ≠ 0 then [ReportItem.errorExit s.ret]
  else
    ((List.range s.initSize).map
        (fun i => ReportItem.evalLine i (s.evals i) (s.rnorms i)))
    ++ [ReportItem.convergedLine s.initSize,
        ReportItem.toleranceLine (s.aNorm * s.eps),
        ReportItem.iterationsLine s.numOuterIterations,
        ReportItem.restartsLine s.numRestarts,
        ReportItem.matvecsLine s.numMatvecs,
        ReportItem.precondsLine s.numPreconds]
    ++ (if lockingProblem s then [ReportItem.lockingWarning] else [])
    ++ (if s.dynamicMethodSwitch = -1 then [ReportItem.recommendMinMatvecs]
        else if s.dynamicMethodSwitch = -2 then [ReportItem.recommendMinTime]
        else if s.dynamicMethodSwitch = -3 then [ReportItem.recommendDynamicClose]
        else [])

/-- The value `main` returns: `-1` on nonzero solver status, else `0`. -/
def driverExitCode (s : SolveOutcome) : ℤ :=
  if s.ret ≠ 0 then -1 else 0

/-- Whether a report line is one of the three strategy recommendations. -/
def isRecommendation : ReportItem → Bool
  | ReportItem.recommendMinMatvecs => true
  | ReportItem.recommendMinTime => true
  | ReportItem.recommendDynamicClose => true
  | _ => false

/-- Selects the strategy-recommendation lines out of a report. -/
def recommendationsOf (l : List ReportItem) : List ReportItem :=
  l.filter isRecommendation

/-- A concrete failed solve: nonzero return status with three partial
eigenpairs accumulated in the output arrays. -/
def failedOutcome : SolveOutcome :=
  { ret := 1
    initSize := 3
    evals := fun _ => 1
    rnorms := fun _ => 0
    aNorm := 1
    eps := 1 / 1000000000
    numOuterIterations := 5
    numRestarts := 1
    numMatvecs := 7
    numPreconds := 7
    locking := 1
    intWork := some (fun _ => 1)
    dynamicMethodSwitch := 0 }

/-- A concrete successful solve with locking enabled, the locking-problem
sentinel set, and a `DEFAULT_MIN_MATVECS` recommendation pending. -/
def successOutcome : SolveOutcome :=
  { ret := 0
    initSize := 2
    evals := fun _ => 1
    rnorms := fun _ => 0
    aNorm := 1
    eps := 1 / 1000000000
    numOuterIterations := 5
    numRestarts := 1
    numMatvecs := 7
    numPreconds := 7
    locking := 1
    intWork := some (fun _ => 1)
    dynamicMethodSwitch := -1 }

/-! Characterization lemmas for the loops. -/

theorem rowLoop_hit (g : ℕ → ℚ) (yoff r s : ℕ) (y : ℕ → ℚ) (hs : s < r) :
    rowLoop g yoff r y (yoff + s) = g s := by
  induction r with
  | zero => omega
  | succ r ih =>
    by_cases hsr : s = r
    · subst hsr
      simp [rowLoop, upd]
    · have : s < r := by omega
      simp only [rowLoop, upd]
      rw [if_neg (by omega)]
      exact ih this

theorem rowLoop_miss (g : ℕ → ℚ) (yoff r : ℕ) (y : ℕ → ℚ) (j : ℕ)
    (h : ∀ s, s < r → j ≠ yoff + s) :
    rowLoop g yoff r y j = y j := by
  induction r with
  | zero => rfl
  | succ r ih =>
    simp only [rowLoop, upd]
    rw [if_neg (h r (by omega))]
    exact ih (fun s hs => h s (by omega))

theorem colLoop_miss (g : ℕ → ℕ → ℚ) (n ldy b : ℕ) (y : ℕ → ℚ) (j : ℕ)
    (h : ∀ i, i < b → ∀ s, s < n → j ≠ ldy * i + s) :
    colLoop g n ldy b y j = y j := by
  induction b with
  | zero => rfl
  | succ b ih =>
    simp only [colLoop]
    rw [rowLoop_miss _ _ _ _ _ (fun s hs => h b (by omega) s hs)]
    exact ih (fun i hi s hs => h i (by omega) s hs)

theorem colLoop_hit (g : ℕ → ℕ → ℚ) (n ldy b i s : ℕ) (y : ℕ → ℚ)
    (hldy : n ≤ ldy) (hi : i < b) (hs : s < n) :
    colLoop g n ldy b y (ldy * i + s) = g i s := by
  induction b with
  | zero => omega
  | succ b ih =>
    by_cases hib : i = b
    · subst hib
      simp only [colLoop]
      exact rowLoop_hit _ _ _ _ _ hs
    · have hib' : i < b := by omega
      simp only [colLoop]
      rw [rowLoop_miss]
      · exact ih hib'
      · intro s' hs' habs
        have h1 : ldy * i + s < ldy * (i + 1) := by
          have : s < ldy := lt_of_lt_of_le hs hldy
          calc ldy * i + s < ldy * i + ldy := by omega
            _ = ldy * (i + 1) := by ring
        have h2 : ldy * (i + 1) ≤ ldy * b := Nat.mul_le_mul_left ldy (by omega)
        omega

/-- Writing a column at buffer offset `off` is the same as writing it at
offset 0 in the shifted view of the buffer. -/
theorem rowLoop_shift (g : ℕ → ℚ) (off r : ℕ) (y : ℕ → ℚ) (j : ℕ) :
    rowLoop g off r y j =
      if off ≤ j then rowLoop g 0 r (fun k => y (off + k)) (j - off) else y j := by
  induction r with
  | zero =>
    simp only [rowLoop]
    split
    · next h => congr 1; omega
    · rfl
  | succ r ih =>
    simp only [rowLoop, upd, Nat.zero_add]
    by_cases hoff : off ≤ j
    · rw [if_pos hoff]
      by_cases hj : j = off + r
      · rw [if_pos hj, if_pos (by omega)]
      · rw [if_neg hj, if_neg (by omega), ih, if_pos hoff]
    · rw [if_neg hoff, if_neg (by omega), ih, if_neg hoff]

/-- The accumulated cell value as a closed formula: the tridiagonal row
combination with the out-of-range terms omitted at the boundaries. -/
theorem lapCell_eq (n : ℕ) (xv : ℕ → ℚ) (row : ℕ) :
    lapCell n xv row =
      (if 1 ≤ row then -(xv (row - 1)) else 0) + 2 * xv row
        + (if row + 1 < n then -(xv (row + 1)) else 0) := by
  simp only [lapCell]
  split_ifs <;> ring

/-- Row `r` of the spec's tridiagonal matrix times a column agrees with the
code's accumulated cell value, for every in-range row. -/
theorem specMatVec_eq_lapCell (n : ℕ) (x : ℕ → ℚ) (r : ℕ) (hr : r < n) :
    specMatVec n specLaplacianMatrix x r = lapCell n x r := by
  have hsplit : ∀ c, specLaplacianMatrix r c * x c =
      (if c = r then 2 * x c else 0) + (if r = c + 1 then -(x c) else 0)
        + (if c = r + 1 then -(x c) else 0) := by
    intro c
    unfold specLaplacianMatrix
    split_ifs <;> first | omega | ring
  unfold specMatVec
  rw [Finset.sum_congr rfl (fun c _ => hsplit c), Finset.sum_add_distrib,
    Finset.sum_add_distrib, Finset.sum_ite_eq' (Finset.range n) r (fun c => 2 * x c),
    Finset.sum_ite_eq' (Finset.range n) (r + 1) (fun c => -(x c))]
  have h2 : ∑ c ∈ Finset.range n, (if r = c + 1 then -(x c) else 0)
      = if 1 ≤ r then -(x (r - 1)) else 0 := by
    cases r with
    | zero => simp
    | succ k =>
      have hk : ∀ c, (if k + 1 = c + 1 then -(x c) else 0)
          = (if c = k then -(x c) else 0) := by
        intro c
        split_ifs <;> first | rfl | omega
      rw [Finset.sum_congr rfl (fun c _ => hk c),
        Finset.sum_ite_eq' (Finset.range n) k (fun c => -(x c)),
        if_pos (Finset.mem_range.mpr (show k < n by omega))]
      simp
  rw [h2, lapCell_eq]
  simp only [Finset.mem_range]
  split_ifs <;> first | omega | ring

/-- Calling a callback of shape `blockCall cell` once per vector with block
width 1 produces the same output buffer as one block call. -/
theorem oneAtATime_blockCall (cell : ℕ → (ℕ → ℚ) → ℕ → ℚ) (x : ℕ → ℚ)
    (ldx : ℕ) (y : ℕ → ℚ) (ldy n b : ℕ) :
    oneAtATime (blockCall cell) x ldx y ldy n b
      = (blockCall cell x ldx y ldy b n).y := by
  induction b with
  | zero => rfl
  | succ i ih =>
    funext j
    show (let yp := oneAtATime (blockCall cell) x ldx y ldy n i
          let res := blockCall cell (fun k => x (ldx * i + k)) ldx
            (fun k => yp (ldy * i + k)) ldy 1 n
          fun j => if ldy * i ≤ j then res.y (j - ldy * i) else yp j) j = _
    simp only [blockCall, colLoop, Nat.mul_zero, Nat.zero_add, ih]
    rw [← rowLoop_shift]

/-- C1: for every block width `b ≥ 1` and block column `i`, output column `i`
of `LaplacianMatrixMatvec` at row `row` is `-X[row-1] + 2*X[row] - X[row+1]`
with the out-of-range terms omitted at the boundaries, and equals row `row`
of the product of the tridiagonal (2, -1) matrix with input column `i`. -/
theorem C1_matvec_tridiagonal (n ldx ldy b i row : ℕ) (x y : ℕ → ℚ)
    (hb : 1 ≤ b) (hi : i < b) (hrow : row < n) (hldy : n ≤ ldy) :
    (LaplacianMatrixMatvec x ldx y ldy b n).y (ldy * i + row)
      = (if 1 ≤ row then -(x (ldx * i + (row - 1))) else 0)
        + 2 * x (ldx * i + row)
        + (if row + 1 < n then -(x (ldx * i + (row + 1))) else 0)
    ∧ (LaplacianMatrixMatvec x ldx y ldy b n).y (ldy * i + row)
      = specMatVec n specLaplacianMatrix (fun k => x (ldx * i + k)) row := by
  have hhit : (LaplacianMatrixMatvec x ldx y ldy b n).y (ldy * i + row)
      = lapCell n (fun k => x (ldx * i + k)) row :=
    colLoop_hit _ n ldy b i row y hldy hi hrow
  refine ⟨?_, ?_⟩
  · rw [hhit, lapCell_eq]
  · rw [hhit, specMatVec_eq_lapCell n _ row hrow]

/-- Witness for C1 at `n = 2`, `b = 1`, column 0, row 0, `x = (1, 1)`: the
output is `2·1 - 1 = 1` and agrees with the matrix product. -/
theorem C1_witness :
    (1 ≤ 1 ∧ 0 < 1 ∧ 0 < 2 ∧ 2 ≤ 2)
    ∧ (LaplacianMatrixMatvec (fun _ => 1) 2 (fun _ => 0) 2 1 2).y 0 = 1
    ∧ (LaplacianMatrixMatvec (fun _ => 1) 2 (fun _ => 0) 2 1 2).y 0
        = specMatVec 2 specLaplacianMatrix (fun _ => 1) 0 := by
  have h := C1_matvec_tridiagonal 2 2 2 1 0 0 (fun _ => (1 : ℚ)) (fun _ => 0)
    (by norm_num) (by norm_num) (by norm_num) (by norm_num)
  refine ⟨by norm_num, ?_, ?_⟩
  · have h1 := h.1
    norm_num at h1
    simpa using h1
  · simpa using h.2

/-- C2: calling either callback once with block width `b` writes the same
output buffer, entry for entry, as calling it `b` times with block width 1 on
the columns one at a time with the same leading dimensions. -/
theorem C2_block_width_invariance (x y : ℕ → ℚ) (ldx ldy n b : ℕ) :
    oneAtATime LaplacianMatrixMatvec x ldx y ldy n b
      = (LaplacianMatrixMatvec x ldx y ldy b n).y
    ∧ oneAtATime LaplacianApplyPreconditioner x ldx y ldy n b
      = (LaplacianApplyPreconditioner x ldx y ldy b n).y :=
  ⟨oneAtATime_blockCall lapCell x ldx y ldy n b,
   oneAtATime_blockCall (fun _ => precCell) x ldx y ldy n b⟩

/-- C7: with leading dimensions at least `n`, both callbacks write only the
entries `y[ldy*i + row]` with `i < b`, `row < n`, leave every other entry of
the output buffer unchanged, and leave the input buffer unchanged. -/
theorem C7_frame (n ldx ldy b : ℕ) (x y : ℕ → ℚ)
    (hldx : n ≤ ldx) (hldy : n ≤ ldy) (j : ℕ)
    (hj : ∀ i, i < b → ∀ row, row < n → j ≠ ldy * i + row) :
    ((LaplacianMatrixMatvec x ldx y ldy b n).y j = y j
      ∧ (LaplacianMatrixMatvec x ldx y ldy b n).x = x)
    ∧ ((LaplacianApplyPreconditioner x ldx y ldy b n).y j = y j
      ∧ (LaplacianApplyPreconditioner x ldx y ldy b n).x = x) :=
  ⟨⟨colLoop_miss _ n ldy b y j hj, rfl⟩,
   ⟨colLoop_miss _ n ldy b y j hj, rfl⟩⟩

/-- Witness for C7 at `n = 2`, `ldy = 3`, `b = 1`, untouched address `j = 2`. -/
theorem C7_witness :
    (2 ≤ 3 ∧ 2 ≤ 3 ∧ ∀ i, i < 1 → ∀ row, row < 2 → 2 ≠ 3 * i + row)
    ∧ (((LaplacianMatrixMatvec (fun _ => 1) 3 (fun k => (k : ℚ)) 3 1 2).y 2
          = (fun k => (k : ℚ)) 2
        ∧ (LaplacianMatrixMatvec (fun _ => 1) 3 (fun k => (k : ℚ)) 3 1 2).x
          = fun _ => 1)
      ∧ ((LaplacianApplyPreconditioner (fun _ => 1) 3 (fun k => (k : ℚ)) 3 1 2).y 2
          = (fun k => (k : ℚ)) 2
        ∧ (LaplacianApplyPreconditioner (fun _ => 1) 3 (fun k => (k : ℚ)) 3 1 2).x
          = fun _ => 1)) :=
  ⟨⟨by norm_num, by norm_num, by omega⟩,
   C7_frame 2 3 3 1 (fun _ => 1) (fun k => (k : ℚ)) (by norm_num) (by norm_num) 2
     (by omega)⟩

/-- C8: both callbacks set the status output to `0` on every call, for every
block width and every input; the failure value is never produced. -/
theorem C8_status_always_zero (x y : ℕ → ℚ) (ldx ldy b n : ℕ) :
    (LaplacianMatrixMatvec x ldx y ldy b n).ierr = 0
    ∧ (LaplacianApplyPreconditioner x ldx y ldy b n).ierr = 0 :=
  ⟨rfl, rfl⟩

/-- C10: the preconditioner writes `x[row]/2` to every in-range output entry
(the inverse of the diagonal matrix with 2 on the diagonal), and it is not
the identity map. -/
theorem C10_preconditioner_halves (n ldx ldy b i row : ℕ) (x y : ℕ → ℚ)
    (hb : 1 ≤ b) (hi : i < b) (hrow : row < n) (hldy : n ≤ ldy) :
    (LaplacianApplyPreconditioner x ldx y ldy b n).y (ldy * i + row)
      = x (ldx * i + row) / 2
    ∧ (LaplacianApplyPreconditioner (fun _ => 1) 1 (fun _ => 0) 1 1 1).y 0
      ≠ (fun _ => (1 : ℚ)) 0 := by
  constructor
  · exact colLoop_hit _ n ldy b i row y hldy hi hrow
  · have h : (LaplacianApplyPreconditioner (fun _ => (1 : ℚ)) 1 (fun _ => 0) 1 1 1).y 0
        = 1 / 2 := by
      have := colLoop_hit (fun i' => precCell (fun k => (fun _ => (1 : ℚ)) (1 * i' + k)))
        1 1 1 0 0 (fun _ => 0) (le_refl 1) Nat.zero_lt_one Nat.zero_lt_one
      simpa [LaplacianApplyPreconditioner, blockCall, precCell] using this
    rw [h]
    norm_num

/-- Witness for C10 at `n = 1`, `b = 1`, `x = (4, 4, …)`. -/
theorem C10_witness :
    (1 ≤ 1 ∧ 0 < 1 ∧ 0 < 1 ∧ 1 ≤ 1)
    ∧ ((LaplacianApplyPreconditioner (fun _ => 4) 1 (fun _ => 0) 1 1 1).y
          (1 * 0 + 0)
        = (fun _ => (4 : ℚ)) (1 * 0 + 0) / 2
      ∧ (LaplacianApplyPreconditioner (fun _ => 1) 1 (fun _ => 0) 1 1 1).y 0
        ≠ (fun _ => (1 : ℚ)) 0) :=
  ⟨by norm_num,
   C10_preconditioner_halves 1 1 1 1 0 0 (fun _ => 4) (fun _ => 0)
     (by norm_num) (by norm_num) (by norm_num) (by norm_num)⟩

/-- Sums over `range n` of terms guarded by `1 ≤ r` re-index to `range (n-1)`. -/
theorem sum_if_pos_shift (n : ℕ) (h : ℕ → ℚ) :
    ∑ r ∈ Finset.range n, (if 1 ≤ r then h r else 0)
      = ∑ k ∈ Finset.range (n - 1), h (k + 1) := by
  cases n with
  | zero => simp
  | succ m =>
    rw [Finset.sum_range_succ']
    simp

/-- Sums over `range n` of terms guarded by `r + 1 < n` drop the last index. -/
theorem sum_if_lt_chop (n : ℕ) (h : ℕ → ℚ) :
    ∑ r ∈ Finset.range n, (if r + 1 < n then h r else 0)
      = ∑ r ∈ Finset.range (n - 1), h r := by
  cases n with
  | zero => simp
  | succ m =>
    rw [Finset.sum_range_succ]
    have hc : ∀ r ∈ Finset.range m, (if r + 1 < m + 1 then h r else 0) = h r := by
      intro r hr
      rw [if_pos (by simp at hr; omega)]
    rw [Finset.sum_congr rfl hc]
    simp

/-- The inner product is symmetric in its two vector arguments. -/
theorem dotR_comm (n : ℕ) (u v : ℕ → ℚ) : dotR n u v = dotR n v u :=
  Finset.sum_congr rfl (fun j _ => mul_comm (u j) (v j))

/-- Normal form of the bilinear form attached to the code's operator: the
diagonal part and the two off-diagonal chain sums. -/
theorem dot_applyLap (n : ℕ) (x y : ℕ → ℚ) :
    dotR n (applyLap n x) y =
      2 * dotR n x y - (∑ k ∈ Finset.range (n - 1), x k * y (k + 1))
        - (∑ k ∈ Finset.range (n - 1), x (k + 1) * y k) := by
  unfold dotR applyLap
  have hcell : ∀ r, lapCell n x r * y r =
      (if 1 ≤ r then -(x (r - 1) * y r) else 0)
        + 2 * (x r * y r)
        + (if r + 1 < n then -(x (r + 1) * y r) else 0) := by
    intro r
    rw [lapCell_eq]
    split_ifs <;> ring
  rw [Finset.sum_congr rfl (fun r _ => hcell r), Finset.sum_add_distrib,
    Finset.sum_add_distrib, sum_if_pos_shift n (fun r => -(x (r - 1) * y r)),
    sum_if_lt_chop n (fun r => -(x (r + 1) * y r))]
  have e1 : ∑ k ∈ Finset.range (n - 1), -(x (k + 1 - 1) * y (k + 1))
      = -∑ k ∈ Finset.range (n - 1), x k * y (k + 1) := by
    rw [← Finset.sum_neg_distrib]
    exact Finset.sum_congr rfl (fun k _ => by simp)
  have e2 : ∑ r ∈ Finset.range (n - 1), -(x (r + 1) * y r)
      = -∑ r ∈ Finset.range (n - 1), x (r + 1) * y r := by
    rw [← Finset.sum_neg_distrib]
  have e3 : ∑ r ∈ Finset.range n, 2 * (x r * y r)
      = 2 * ∑ r ∈ Finset.range n, x r * y r := by
    rw [Finset.mul_sum]
  rw [e1, e2, e3]
  ring

/-- The quadratic form of the code's operator as a sum of squares, for any
nonempty dimension. -/
theorem quad_identity (n : ℕ) (hn : 1 ≤ n) (x : ℕ → ℚ) :
    dotR n x (applyLap n x)
      = x 0 ^ 2 + x (n - 1) ^ 2
        + ∑ k ∈ Finset.range (n - 1), (x k - x (k + 1)) ^ 2 := by
  have hswap : ∑ k ∈ Finset.range (n - 1), x (k + 1) * x k
      = ∑ k ∈ Finset.range (n - 1), x k * x (k + 1) :=
    Finset.sum_congr rfl (fun k _ => mul_comm _ _)
  have hQ : dotR n x (applyLap n x)
      = 2 * dotR n x x - 2 * ∑ k ∈ Finset.range (n - 1), x k * x (k + 1) := by
    rw [dotR_comm, dot_applyLap, hswap]
    ring
  obtain ⟨m, rfl⟩ : ∃ m, n = m + 1 := ⟨n - 1, by omega⟩
  simp only [Nat.add_sub_cancel] at hQ ⊢
  have e1 : ∑ k ∈ Finset.range m, (x k - x (k + 1)) ^ 2
      = (∑ k ∈ Finset.range m, x k * x k)
        + (∑ k ∈ Finset.range m, x (k + 1) * x (k + 1))
        - 2 * ∑ k ∈ Finset.range m, x k * x (k + 1) := by
    rw [Finset.mul_sum, ← Finset.sum_add_distrib, ← Finset.sum_sub_distrib]
    exact Finset.sum_congr rfl (fun k _ => by ring)
  have e2 : dotR (m + 1) x x = (∑ k ∈ Finset.range m, x k * x k) + x m * x m :=
    Finset.sum_range_succ _ _
  have e3 : dotR (m + 1) x x
      = (∑ k ∈ Finset.range m, x (k + 1) * x (k + 1)) + x 0 * x 0 :=
    Finset.sum_range_succ' _ _
  rw [hQ]
  have hx0 : x 0 ^ 2 = x 0 * x 0 := sq (x 0) ▸ rfl
  nlinarith [e1, e2, e3]

/-- The quadratic form is strictly positive on every vector with a nonzero
entry below the dimension. -/
theorem quad_pos (n : ℕ) (x : ℕ → ℚ) (hx : ∃ j, j < n ∧ x j ≠ 0) :
    0 < dotR n x (applyLap n x) := by
  obtain ⟨j, hj, hxj⟩ := hx
  have hn : 1 ≤ n := by omega
  rw [quad_identity n hn x]
  have hT : 0 ≤ ∑ k ∈ Finset.range (n - 1), (x k - x (k + 1)) ^ 2 :=
    Finset.sum_nonneg (fun k _ => sq_nonneg _)
  by_contra hle
  push_neg at hle
  have h0 : x 0 ^ 2 = 0 := by
    nlinarith [sq_nonneg (x 0), sq_nonneg (x (n - 1))]
  have hTzero : ∑ k ∈ Finset.range (n - 1), (x k - x (k + 1)) ^ 2 = 0 := by
    nlinarith [sq_nonneg (x 0), sq_nonneg (x (n - 1))]
  have hx0 : x 0 = 0 := by
    have := pow_eq_zero_iff (n := 2) (by norm_num) |>.mp h0
    exact this
  have hstep : ∀ k, k < n - 1 → x (k + 1) = x k := by
    intro k hk
    have hk0 : (x k - x (k + 1)) ^ 2 = 0 :=
      (Finset.sum_eq_zero_iff_of_nonneg (fun i _ => sq_nonneg _)).mp hTzero k
        (Finset.mem_range.mpr hk)
    have := pow_eq_zero_iff (n := 2) (by norm_num) |>.mp hk0
    linarith
  have hall : ∀ m, m < n → x m = 0 := by
    intro m
    induction m with
    | zero => intro _; exact hx0
    | succ k ih =>
      intro hm
      rw [hstep k (by omega), ih (by omega)]
  exact hxj (hall j hj)

/-- C3: the operator applied per column by `LaplacianMatrixMatvec` is
symmetric — `⟨A x, y⟩ = ⟨x, A y⟩` for all length-`n` vectors — and its
quadratic form is strictly positive on every nonzero vector. -/
theorem C3_symmetric_positive_definite (n : ℕ) :
    (∀ (x y : ℕ → ℚ) (ldx ldy b i row : ℕ), i < b → row < n → n ≤ ldy →
        (LaplacianMatrixMatvec x ldx y ldy b n).y (ldy * i + row)
          = applyLap n (fun k => x (ldx * i + k)) row)
    ∧ (∀ x y : ℕ → ℚ, dotR n (applyLap n x) y = dotR n x (applyLap n y))
    ∧ (∀ x : ℕ → ℚ, (∃ j, j < n ∧ x j ≠ 0) → 0 < dotR n x (applyLap n x)) := by
  refine ⟨?_, ?_, quad_pos n⟩
  · intro x y ldx ldy b i row hi hrow hldy
    exact colLoop_hit _ n ldy b i row y hldy hi hrow
  · intro x y
    have h1 := dot_applyLap n x y
    have h2 := dot_applyLap n y x
    have hxy : dotR n x (applyLap n y) = dotR n (applyLap n y) x := dotR_comm _ _ _
    have hc : dotR n y x = dotR n x y := dotR_comm _ _ _
    have hA : ∑ k ∈ Finset.range (n - 1), y k * x (k + 1)
        = ∑ k ∈ Finset.range (n - 1), x (k + 1) * y k :=
      Finset.sum_congr rfl (fun k _ => mul_comm _ _)
    have hB : ∑ k ∈ Finset.range (n - 1), y (k + 1) * x k
        = ∑ k ∈ Finset.range (n - 1), x k * y (k + 1) :=
      Finset.sum_congr rfl (fun k _ => mul_comm _ _)
    rw [h1, hxy, h2, hA, hB, hc]
    ring

/-- Witness for C3 at `n = 2`: the hit formula at column 0, row 0 of a block
call, symmetry on two concrete vectors, and positivity on `x = (1, 1)`. -/
theorem C3_witness :
    ((0 : ℕ) < 1 ∧ (0 : ℕ) < 2 ∧ (2 : ℕ) ≤ 2 ∧ (∃ j, j < 2 ∧ (fun _ => (1 : ℚ)) j ≠ 0))
    ∧ (LaplacianMatrixMatvec (fun _ => 1) 2 (fun _ => 0) 2 1 2).y (2 * 0 + 0)
        = applyLap 2 (fun k => (fun _ => (1 : ℚ)) (2 * 0 + k)) 0
    ∧ 0 < dotR 2 (fun _ => (1 : ℚ)) (applyLap 2 (fun _ => 1)) := by
  refine ⟨⟨by norm_num, by norm_num, by norm_num, ⟨0, by norm_num, by norm_num⟩⟩, ?_, ?_⟩
  · exact (C3_symmetric_positive_definite 2).1 (fun _ => 1) (fun _ => 0) 2 2 1 0 0
      (by norm_num) (by norm_num) (by norm_num)
  · exact (C3_symmetric_positive_definite 2).2.2 (fun _ => 1) ⟨0, by norm_num, by norm_num⟩

/-- The locking-problem guard holds exactly when locking is enabled, the
integer workspace pointer is non-null, and its first slot equals 1. -/
theorem lockingProblem_iff (s : SolveOutcome) :
    lockingProblem s = true
      ↔ s.locking ≠ 0 ∧ ∃ w, s.intWork = some w ∧ w 0 = 1 := by
  unfold lockingProblem
  cases hw : s.intWork with
  | none => simp [hw]
  | some w => simp [hw, bne_iff_ne]

/-- C4 counterexample: a failed solve with three accumulated eigenpairs, on
which the driver's report consists of the error message only — no partial
results are reported — and the driver exits with `-1`. -/
theorem C4_counterexample :
    failedOutcome.ret ≠ 0 ∧ 0 < failedOutcome.initSize
    ∧ driverReport failedOutcome = [ReportItem.errorExit 1]
    ∧ (∀ i ev rn, ReportItem.evalLine i ev rn ∉ driverReport failedOutcome)
    ∧ driverExitCode failedOutcome = -1 := by
  have hrep : driverReport failedOutcome = [ReportItem.errorExit 1] := rfl
  refine ⟨by norm_num [failedOutcome], by norm_num [failedOutcome], hrep, ?_, rfl⟩
  intro i ev rn hmem
  rw [hrep] at hmem
  simp at hmem

/-- C4 amended: whenever the solver call returns a nonzero status, the driver
reports only the error message with that status and exits with `-1`; the
partial results in the output arrays are not reported. -/
theorem C4_amended_failure_report (s : SolveOutcome) (h : s.ret ≠ 0) :
    driverReport s = [ReportItem.errorExit s.ret]
    ∧ (∀ i ev rn, ReportItem.evalLine i ev rn ∉ driverReport s)
    ∧ driverExitCode s = -1 := by
  have hrep : driverReport s = [ReportItem.errorExit s.ret] := by
    unfold driverReport
    rw [if_pos h]
  refine ⟨hrep, ?_, ?_⟩
  · intro i ev rn hmem
    rw [hrep] at hmem
    simp at hmem
  · unfold driverExitCode
    rw [if_pos h]

/-- Witness for the amended C4 at the concrete failed solve. -/
theorem C4_witness :
    failedOutcome.ret ≠ 0
    ∧ (driverReport failedOutcome = [ReportItem.errorExit failedOutcome.ret]
      ∧ (∀ i ev rn, ReportItem.evalLine i ev rn ∉ driverReport failedOutcome)
      ∧ driverExitCode failedOutcome = -1) :=
  ⟨by norm_num [failedOutcome],
   C4_amended_failure_report failedOutcome (by norm_num [failedOutcome])⟩

/-- C5: after a successful solve, the locking warning appears in the report
exactly when locking is enabled, the integer workspace pointer is non-null,
and the first slot of the integer workspace equals 1. -/
theorem C5_locking_warning_iff (s : SolveOutcome) (h : s.ret = 0) :
    ReportItem.lockingWarning ∈ driverReport s
      ↔ s.locking ≠ 0 ∧ ∃ w, s.intWork = some w ∧ w 0 = 1 := by
  have hmem : ReportItem.lockingWarning ∈ driverReport s
      ↔ lockingProblem s = true := by
    unfold driverReport
    rw [if_neg (by simp [h])]
    by_cases hc : lockingProblem s = true
    · rw [if_pos hc]
      simp [hc]
    · rw [if_neg hc]
      simp only [hc, iff_false]
      split_ifs <;> simp
  rw [hmem, lockingProblem_iff]

/-- Witness for C5 at a successful solve with the sentinel set. -/
theorem C5_witness :
    successOutcome.ret = 0
    ∧ (ReportItem.lockingWarning ∈ driverReport successOutcome
        ↔ successOutcome.locking ≠ 0
          ∧ ∃ w, successOutcome.intWork = some w ∧ w 0 = 1) :=
  ⟨rfl, C5_locking_warning_iff successOutcome rfl⟩

/-- C6: on a successful termination, the report carries exactly one strategy
recommendation determined by `dynamicMethodSwitch` — `-1` yields
`DEFAULT_MIN_MATVECS`, `-2` yields `DEFAULT_MIN_TIME`, `-3` yields `DYNAMIC`
marked as a close call — and any other value yields no recommendation. -/
theorem C6_recommendation (s : SolveOutcome) (h : s.ret = 0) :
    (s.dynamicMethodSwitch = -1 →
        recommendationsOf (driverReport s) = [ReportItem.recommendMinMatvecs])
    ∧ (s.dynamicMethodSwitch = -2 →
        recommendationsOf (driverReport s) = [ReportItem.recommendMinTime])
    ∧ (s.dynamicMethodSwitch = -3 →
        recommendationsOf (driverReport s) = [ReportItem.recommendDynamicClose])
    ∧ (s.dynamicMethodSwitch ≠ -1 → s.dynamicMethodSwitch ≠ -2 →
        s.dynamicMethodSwitch ≠ -3 →
        recommendationsOf (driverReport s) = []) := by
  have hrec : recommendationsOf (driverReport s)
      = (if s.dynamicMethodSwitch = -1 then [ReportItem.recommendMinMatvecs]
         else if s.dynamicMethodSwitch = -2 then [ReportItem.recommendMinTime]
         else if s.dynamicMethodSwitch = -3 then [ReportItem.recommendDynamicClose]
         else []) := by
    unfold recommendationsOf driverReport
    rw [if_neg (by simp [h])]
    simp only [List.filter_append]
    have h1 : List.filter isRecommendation
        ((List.range s.initSize).map
          (fun i => ReportItem.evalLine i (s.evals i) (s.rnorms i))) = [] := by
      rw [List.filter_eq_nil_iff]
      intro a ha
      simp only [List.mem_map] at ha
      obtain ⟨i, _, rfl⟩ := ha
      simp [isRecommendation]
    have h2 : List.filter isRecommendation
        [ReportItem.convergedLine s.initSize,
         ReportItem.toleranceLine (s.aNorm * s.eps),
         ReportItem.iterationsLine s.numOuterIterations,
         ReportItem.restartsLine s.numRestarts,
         ReportItem.matvecsLine s.numMatvecs,
         ReportItem.precondsLine s.numPreconds] = [] := rfl
    have h3 : List.filter isRecommendation
        (if lockingProblem s then [ReportItem.lockingWarning] else []) = [] := by
      split_ifs <;> rfl
    rw [h1, h2, h3]
    simp only [List.nil_append]
    split_ifs <;> rfl
  refine ⟨?_, ?_, ?_, ?_⟩
  · intro h1
    rw [hrec, if_pos h1]
  · intro h2
    rw [hrec, if_neg (by rw [h2]; norm_num), if_pos h2]
  · intro h3
    rw [hrec, if_neg (by rw [h3]; norm_num), if_neg (by rw [h3]; norm_num),
      if_pos h3]
  · intro h1 h2 h3
    rw [hrec, if_neg h1, if_neg h2, if_neg h3]

/-- Witness for C6 at a successful solve with recommendation value `-1`. -/
theorem C6_witness :
    successOutcome.ret = 0
    ∧ ((successOutcome.dynamicMethodSwitch = -1 →
          recommendationsOf (driverReport successOutcome)
            = [ReportItem.recommendMinMatvecs])
      ∧ (successOutcome.dynamicMethodSwitch = -2 →
          recommendationsOf (driverReport successOutcome)
            = [ReportItem.recommendMinTime])
      ∧ (successOutcome.dynamicMethodSwitch = -3 →
          recommendationsOf (driverReport successOutcome)
            = [ReportItem.recommendDynamicClose])
      ∧ (successOutcome.dynamicMethodSwitch ≠ -1 →
          successOutcome.dynamicMethodSwitch ≠ -2 →
          successOutcome.dynamicMethodSwitch ≠ -3 →
          recommendationsOf (driverReport successOutcome) = [])) :=
  ⟨rfl, C6_recommendation successOutcome rfl⟩

/-- C9: the driver's configuration, built before `dprimme` is invoked, has
problem dimension 100, ten wanted eigenpairs, tolerance `1e-9`, and target
criterion `primme_smallest`, whatever the library defaults were. -/
theorem C9_driver_configuration (p0 : PrimmeParams) :
    (driverSetParams p0).n = 100
    ∧ (driverSetParams p0).numEvals = 10
    ∧ (driverSetParams p0).eps = 1 / 1000000000
    ∧ (driverSetParams p0).target = PrimmeTarget.primme_smallest :=
  ⟨rfl, rfl, rfl, rfl⟩
